/-
Verification development for the Selection Tree Engine of
virtual_stream_utility (src/main.py).

The embedding models the pure core of the program:
  * FileTreeBuilder.build_tree_structure  (nested-dict tree construction)
  * StreamSpecCreator._build_level        (materialization of tree items)
  * StreamSpecCreator.load_children / _restore_check_states
  * StreamSpecCreator.on_item_changed     (its effect on checked_paths)
  * StreamSpecCreator._is_folder, _add_all_children_to_checked,
    _remove_all_children_from_checked
  * StreamSpecCreator.update_parent_check_state
  * StreamSpecCreator.get_checked_paths / optimize_paths / update_stream_spec

Python dicts are modelled by an insertion-ordered association structure
`Dict` whose values are either a list of strings (the reserved "_files"
entry) or a nested dict.  Python sets (checked_paths, file_set) are
modelled by duplicate-free lists: Python's set iteration order is
arbitrary, and every consumer below is either order-independent or sorts
first, so fixing insertion order is a sound choice of representative.
Python string operations (split('/'), startswith, endswith, slicing,
lexicographic comparison by code point) are modelled by recursion on the
character list of the Lean string.
-/
import Mathlib

set_option maxHeartbeats 1000000

namespace VSU

/-! ### String helpers (models of Python str operations) -/

/-- Model of Python s.startswith(pre): character-list test. -/
def strStarts (s pre : String) : Bool := pre.data.isPrefixOf s.data

/-- Model of Python s.endswith(t): character-list test. -/
def strEnds (s t : String) : Bool := t.data.isSuffixOf s.data

/-- Model of Python s[:-n] (drop the last n characters, empty if shorter). -/
def strDropRight (s : String) (n : Nat) : String :=
  String.mk (s.data.take (s.data.length - n))

/-- Model of Python string comparison s <= t: lexicographic by code point. -/
def charsLe : List Char → List Char → Bool
  | [], _ => true
  | _ :: _, [] => false
  | a :: as, b :: bs => if a = b then charsLe as bs else decide (a < b)

/-- Model of Python string comparison s <= t on Lean strings. -/
def strLe (s t : String) : Bool := charsLe s.data t.data

/-- Model of Python file_path.split('/') on the character list:
splitting on '/' keeps empty segments and yields [[]] on the empty list,
exactly as Python str.split('/') does. -/
def splitSegs : List Char → List (List Char)
  | [] => [[]]
  | c :: cs =>
    if c = '/' then [] :: splitSegs cs
    else
      match splitSegs cs with
      | [] => [[c]]
      | s :: ss => (c :: s) :: ss

/-- Model of Python file_path.split('/'). -/
def splitPath (s : String) : List String := (splitSegs s.data).map String.mk

/-- The path-join used throughout _build_level and load_children:
f"{parent_path}/{name}" if parent_path else name  (only "" is falsy). -/
def childPath (parent name : String) : String :=
  if parent = "" then name else parent ++ "/" ++ name

/-- Helper for reasoning about joined paths: '/'-separated continuation
of a non-first list of segments. -/
def joinRest : List (List Char) → List Char
  | [] => []
  | s :: ss => '/' :: (s ++ joinRest ss)

/-- Insertion of a string into a sorted list (ascending strLe). -/
def insSorted (x : String) : List String → List String
  | [] => [x]
  | y :: ys => if strLe x y = true then x :: y :: ys else y :: insSorted x ys

/-- Model of Python sorted(...) on a list of strings.  Python's sort is a
stable sort for a total lexicographic order; since that order is
antisymmetric on strings, every correct sorting algorithm produces the
same output, so insertion sort is a faithful model. -/
def sortStrings : List String → List String
  | [] => []
  | x :: xs => insSorted x (sortStrings xs)

/-- Ascending sortedness with respect to strLe. -/
def SortedLe (l : List String) : Prop := l.Pairwise (fun a b => strLe a b = true)

/-! ### The nested-dict tree of build_tree_structure -/

/-- A Python dict as built by build_tree_structure: an insertion-ordered
association structure whose values are either a list of file-name strings
(stored under the reserved key "_files") or a nested dict. -/
inductive Dict where
  | nil : Dict
  | consFiles : String → List String → Dict → Dict
  | consDir : String → Dict → Dict → Dict
deriving DecidableEq

/-- A dict value: a list of strings or a sub-dict. -/
inductive Val where
  | vlist : List String → Val
  | vdict : Dict → Val
deriving DecidableEq

/-- Key lookup (Python: part in current / current[part]). -/
def Dict.lookup : Dict → String → Option Val
  | .nil, _ => none
  | .consFiles k fs d, key => if k = key then some (.vlist fs) else d.lookup key
  | .consDir k sub d, key => if k = key then some (.vdict sub) else d.lookup key

/-- Extend a dict with one entry in front, dispatching on the value. -/
def Dict.consV (k : String) : Val → Dict → Dict
  | .vlist fs, d => .consFiles k fs d
  | .vdict sub, d => .consDir k sub d

/-- Python dict assignment to a NEW key: the entry is appended at the end
(insertion order). -/
def Dict.push : Dict → String → Val → Dict
  | .nil, k, v => Dict.consV k v .nil
  | .consFiles k' fs d, k, v => .consFiles k' fs (d.push k v)
  | .consDir k' sub d, k, v => .consDir k' sub (d.push k v)

/-- Python dict assignment to an EXISTING key: the value is replaced in
place (first occurrence). -/
def Dict.update : Dict → String → Val → Dict
  | .nil, _, _ => .nil
  | .consFiles k' fs d, k, v =>
    if k' = k then Dict.consV k v d else .consFiles k' fs (d.update k v)
  | .consDir k' sub d, k, v =>
    if k' = k then Dict.consV k v d else .consDir k' sub (d.update k v)

/-- The entries of a dict in insertion order. -/
def Dict.entriesOf : Dict → List (String × Val)
  | .nil => []
  | .consFiles k fs d => (k, .vlist fs) :: d.entriesOf
  | .consDir k sub d => (k, .vdict sub) :: d.entriesOf

/-- The keys of a dict in insertion order (Python: iterating the dict). -/
def Dict.keysOf (d : Dict) : List String := d.entriesOf.map (fun e => e.1)

/-- One iteration of the inner loop of build_tree_structure: thread one
split path (parts) through the nested dict.  The branches mirror the
Python code exactly:
  * last segment: current.setdefault-like handling of the '_files' list;
    if '_files' already holds a sub-dict (a folder literally named
    "_files" was built earlier at this level), Python's
    current['_files'].append(part) raises AttributeError;
  * non-last segment: descend, creating an empty dict for a new key; if
    the existing value under the key is a list (the reserved '_files'
    list), Python descends into the list and the next subscript raises
    TypeError.
On error Python leaves some earlier in-place mutations behind, but the
worker discards the whole tree (finished is never emitted), so the
aborting Except model is observationally faithful. -/
def insertPath : Dict → List String → Except String Dict
  | d, [] => .ok d
  | d, [name] =>
    match d.lookup "_files" with
    | none => .ok (d.push "_files" (.vlist [name]))
    | some (.vlist fs) => .ok (d.update "_files" (.vlist (fs ++ [name])))
    | some (.vdict _) => .error "AttributeError"
  | d, seg :: rest =>
    match d.lookup seg with
    | none =>
      match insertPath .nil rest with
      | .ok sub => .ok (d.push seg (.vdict sub))
      | .error e => .error e
    | some (.vdict sub) =>
      match insertPath sub rest with
      | .ok sub' => .ok (d.update seg (.vdict sub'))
      | .error e => .error e
    | some (.vlist _) => .error "TypeError"

/-- The loop of build_tree_structure over the remaining paths; an
exception aborts the loop (and the worker reports error instead of
finished). -/
def buildFold : Dict → List String → Except String Dict
  | d, [] => .ok d
  | d, f :: fs =>
    match insertPath d (splitPath f) with
    | .ok d' => buildFold d' fs
    | .error e => .error e

/-- FileTreeBuilder.build_tree_structure: fold all stream file paths into
the nested dict, starting from the empty tree. -/
def build_tree_structure (streamFiles : List String) : Except String Dict :=
  buildFold .nil streamFiles

/-! ### Materialization (_build_level with lazy=False) -/

/-- A materialized tree item: its display name, its full path (stored in
Qt.UserRole), and whether it is a file. -/
structure Item where
  name : String
  path : String
  isFile : Bool
deriving DecidableEq

/-- Insert an entry into a key-sorted dict, keeping keys sorted.  Python
compares the (key, value) tuples of sorted(level_dict.items()) by key
first, and keys are distinct, so key comparison decides. -/
def insEntry (k : String) (v : Val) : Dict → Dict
  | .nil => Dict.consV k v .nil
  | .consFiles k' fs d =>
    if strLe k k' = true then Dict.consV k v (.consFiles k' fs d)
    else .consFiles k' fs (insEntry k v d)
  | .consDir k' sub d =>
    if strLe k k' = true then Dict.consV k v (.consDir k' sub d)
    else .consDir k' sub (insEntry k v d)

/-- Recursively sort every level of a dict by key.  _build_level iterates
sorted(level_dict.items()) at each level; hoisting the per-level sort
into one recursive pass lets the materialization below iterate the
sorted structure directly. -/
def sortDict : Dict → Dict
  | .nil => .nil
  | .consFiles k fs d => insEntry k (.vlist fs) (sortDict d)
  | .consDir k sub d => insEntry k (.vdict (sortDict sub)) (sortDict d)

/-- Sorting of a value, matching sortDict. -/
def sortVal : Val → Val
  | .vlist fs => .vlist fs
  | .vdict d => .vdict (sortDict d)

/-- The file items _build_level adds at one level: the sorted '_files'
list of the level dict.  The degenerate second branch mirrors Python's
sorted(level_dict['_files']) when that key holds a dict (a folder
literally named "_files"): sorted() of a dict iterates its keys. -/
def filesAtLevel (parent : String) (d : Dict) : List Item :=
  match d.lookup "_files" with
  | some (.vlist fs) =>
    (sortStrings fs).map (fun n => ⟨n, childPath parent n, true⟩)
  | some (.vdict sub) =>
    (sortStrings sub.keysOf).map (fun n => ⟨n, childPath parent n, true⟩)
  | none => []

/-- The folder items (with their fully materialized subtrees) that
_build_level with lazy=False adds at one level of a key-sorted dict.
Keys starting with '_' are skipped (the folder loop's continue).  A
non-'_' key holding a list never occurs in a tree produced by
build_tree_structure (only the reserved "_files" key holds lists), so
that branch is dead and skips. -/
def folderItemsSorted (parent : String) : Dict → List Item
  | .nil => []
  | .consFiles _ _ d => folderItemsSorted parent d
  | .consDir k sub d =>
    if strStarts k "_" = true then folderItemsSorted parent d
    else
      ⟨k, childPath parent k, false⟩ ::
        ((folderItemsSorted (childPath parent k) sub
            ++ filesAtLevel (childPath parent k) sub)
          ++ folderItemsSorted parent d)

/-- All items _build_level (lazy=False) creates for one level dict, in
creation order: first the folders (recursively, sorted by name), then
this level's files (sorted by name). -/
def levelItemsOf (parent : String) (d : Dict) : List Item :=
  folderItemsSorted parent (sortDict d) ++ filesAtLevel parent (sortDict d)

/-- The full materialization of a built tree: build_tree_full, i.e.
_build_level(root, tree_structure, "", lazy=False). -/
def buildFullItems (d : Dict) : List Item := levelItemsOf "" d

/-- The full paths of the file items materialized under the given parent
path. -/
def leafList (parent : String) (d : Dict) : List String :=
  ((levelItemsOf parent d).filter (fun it => it.isFile)).map (fun it => it.path)

/-- The set of leaf (file) full paths of the fully materialized tree. -/
def leafPaths (d : Dict) : List String := leafList "" d

/-- Does the built dict contain the given split path as a file?  (The
last segment is a member of the '_files' list reached through the
earlier segments.) -/
def containsFileParts : Dict → List String → Bool
  | _, [] => false
  | d, [n] =>
    match d.lookup "_files" with
    | some (.vlist fs) => decide (n ∈ fs)
    | _ => false
  | d, seg :: rest =>
    match d.lookup seg with
    | some (.vdict sub) => containsFileParts sub rest
    | _ => false

/-- Well-formedness of dicts produced by build_tree_structure when no
folder segment is literally "_files": keys are distinct, the reserved
key "_files" holds a list, and every other key holds a well-formed
sub-dict. -/
inductive WF : Dict → Prop where
  | nil : WF .nil
  | files : ∀ fs d, WF d → Dict.lookup d "_files" = none →
      WF (.consFiles "_files" fs d)
  | dir : ∀ k sub d, k ≠ "_files" → WF sub → WF d → Dict.lookup d k = none →
      WF (.consDir k sub d)

/-! ### load_children navigation and check-state restoration -/

/-- The navigation loop of load_children: walk the split item path
through tree_structure; a missing key returns silently (no mutation).
Descending into a list value cannot happen for an item path of a built
tree (item path segments are never the reserved "_files" key holding the
file list), so that branch is dead and modelled as the silent return. -/
def navigateTree : Dict → List String → Option Dict
  | d, [] => some d
  | d, seg :: rest =>
    match d.lookup seg with
    | some (.vdict sub) => navigateTree sub rest
    | some (.vlist _) => none
    | none => none

/-- Tri-state check state (Qt.Unchecked / Qt.PartiallyChecked /
Qt.Checked). -/
inductive CheckState where
  | unchecked
  | halfChecked
  | checked
deriving DecidableEq

/-- The check state _build_level assigns to a newly created file item:
the p4ignore sentinel names start Checked, everything else Unchecked. -/
def built_initial_state (name : String) : CheckState :=
  if name = "p4ignore.txt" ∨ name = ".p4ignore" then .checked else .unchecked

/-- _restore_check_states for one direct child: exact membership in
checked_paths gives Checked; otherwise a checked entry strictly below
the child gives PartiallyChecked; otherwise the state set at creation is
kept. -/
def restore_check_state (checked : List String) (builtState : CheckState)
    (childFullPath : String) : CheckState :=
  if childFullPath ∈ checked then .checked
  else if checked.any (fun p => strStarts p (childFullPath ++ "/")) = true then .halfChecked
  else builtState

/-! ### Selection tracking (on_item_changed's effect on checked_paths) -/

/-- Python set.add on the duplicate-free list model. -/
def setAdd (s : List String) (x : String) : List String :=
  if x ∈ s then s else s ++ [x]

/-- StreamSpecCreator._is_folder: a path is a folder iff some file of
file_set lies strictly below it. -/
def is_folder (fileSet : List String) (path : String) : Bool :=
  fileSet.any (fun f => strStarts f (path ++ "/"))

/-- StreamSpecCreator._add_all_children_to_checked: add every file of
file_set under the folder to checked_paths. -/
def add_all_children_to_checked (fileSet checked : List String)
    (folderPath : String) : List String :=
  fileSet.foldl
    (fun acc f => if strStarts f (folderPath ++ "/") = true then setAdd acc f else acc)
    checked

/-- StreamSpecCreator._remove_all_children_from_checked: keep only the
entries not strictly below the folder. -/
def remove_all_children_from_checked (checked : List String)
    (folderPath : String) : List String :=
  checked.filter (fun p => strStarts p (folderPath ++ "/") = false)

/-- The effect of on_item_changed on checked_paths.  Checked: add the
path, and when it is a folder also every file below it (the code's
childCount() > 0 or _is_folder(path) test is equivalent to _is_folder
for every item of a built tree, since folder items exist exactly for
paths with files below them).  Any other state: discard the path and
every entry below it.  Python's set.discard is the removal of the (at
most one) occurrence, i.e. the filter below on the duplicate-free
model. -/
def on_item_changed_selection (fileSet checked : List String) (path : String)
    (st : CheckState) : List String :=
  if st = .checked then
    let s1 := setAdd checked path
    if is_folder fileSet path then add_all_children_to_checked fileSet s1 path
    else s1
  else
    remove_all_children_from_checked (checked.filter (fun p => p ≠ path)) path

/-! ### update_parent_check_state -/

/-- The pure recomputation of a folder's state from its non-placeholder
children's states (update_parent_check_state): none when there are no
real children (the early return leaves the state unchanged), Checked
when all children are Checked, Unchecked when none is Checked and none
is PartiallyChecked, PartiallyChecked otherwise. -/
def update_parent_check_state (children : List CheckState) : Option CheckState :=
  let total := children.length
  let checkedCount := children.count .checked
  let halfCount := children.count .halfChecked
  if total = 0 then none
  else if checkedCount = total then some .checked
  else if checkedCount = 0 ∧ halfCount = 0 then some .unchecked
  else some .halfChecked

/-! ### The directive compiler (get_checked_paths / optimize_paths /
update_stream_spec) -/

/-- The inner loop of optimize_paths: is the candidate path covered by a
previously kept folder directive?  opt[:-4] + '/' is the folder's
path followed by '/'. -/
def isCovered (path : String) (optimized : List String) : Bool :=
  optimized.any (fun q =>
    strEnds q "/..." &&
      (strStarts path (strDropRight q 4 ++ "/") || (path ++ "/...") == q))

/-- One step of optimize_paths' walk: keep the candidate unless it is
covered. -/
def optStep (acc : List String) (path : String) : List String :=
  if isCovered path acc then acc else acc ++ [path]

/-- StreamSpecCreator.optimize_paths: sort, then keep each path not
covered by an earlier kept folder directive. -/
def optimize_paths (paths : List String) : List String :=
  (sortStrings paths).foldl optStep []

/-- StreamSpecCreator.get_checked_paths: render each checked path as a
folder directive path/... or as the file path itself, then optimize.
The iteration order over the checked_paths set is arbitrary in Python
and irrelevant here because optimize_paths sorts first. -/
def get_checked_paths (fileSet checked : List String) : List String :=
  optimize_paths
    (checked.map (fun p => if is_folder fileSet p then p ++ "/..." else p))

/-- The spec_lines produced by update_stream_spec: one "share <path>"
line per kept path, and no lines at all when nothing is selected. -/
def spec_lines (fileSet checked : List String) : List String :=
  let paths := get_checked_paths fileSet checked
  if paths = [] then [] else paths.map (fun p => "share " ++ p)

/-- The spec text produced by update_stream_spec. -/
def stream_spec (fileSet checked : List String) : String :=
  if get_checked_paths fileSet checked = [] then "# No paths selected"
  else "\n".intercalate (spec_lines fileSet checked)

/-! ### Path well-formedness predicates used by the theorems -/

/-- No non-final segment of the split path starts with '_' (such folder
segments are skipped by the _build_level display loop). -/
def cleanSegs (parts : List String) : Prop :=
  ∀ s ∈ parts.dropLast, strStarts s "_" = false

/-- No non-final segment of the split path is literally "_files" (the
reserved key). -/
def noFilesSegs (parts : List String) : Prop :=
  ∀ s ∈ parts.dropLast, s ≠ "_files"

/-- The first segment of the path is nonempty (the path is nonempty and
has no leading slash), as the PathEntry data model requires. -/
def firstSegOk (p : String) : Prop := (splitPath p).headD "" ≠ ""

/-- A path entry as the tree engine expects it: no leading slash and no
folder segment starting with '_'. -/
def pathWF (p : String) : Prop := firstSegOk p ∧ cleanSegs (splitPath p)

instance decCleanSegs (parts : List String) : Decidable (cleanSegs parts) :=
  List.decidableBAll _ _

instance decNoFilesSegs (parts : List String) : Decidable (noFilesSegs parts) :=
  List.decidableBAll _ _

instance decFirstSegOk (p : String) : Decidable (firstSegOk p) := by
  unfold firstSegOk
  infer_instance

instance decPathWF (p : String) : Decidable (pathWF p) := by
  unfold pathWF
  infer_instance

/-- An accumulated-list invariant for optimize_paths' walk: processing
the remaining paths after the already-kept list never meets a covered
candidate. -/
inductive SelfOkAux : List String → List String → Prop where
  | nil : ∀ acc, SelfOkAux acc []
  | cons : ∀ acc p l, isCovered p acc = false → SelfOkAux (acc ++ [p]) l →
      SelfOkAux acc (p :: l)

/-! ## Lemmas about the string order and sorting -/

theorem charsLe_total : ∀ a b : List Char, charsLe a b = true ∨ charsLe b a = true
  | [], _ => Or.inl rfl
  | _ :: _, [] => Or.inr rfl
  | a :: as, b :: bs => by
    by_cases hab : a = b
    · subst hab
      simpa [charsLe] using charsLe_total as bs
    · rcases lt_or_gt_of_ne hab with h | h
      · exact Or.inl (by simp [charsLe, hab, h])
      · exact Or.inr (by simp [charsLe, Ne.symm hab, h])

theorem charsLe_trans :
    ∀ a b c : List Char, charsLe a b = true → charsLe b c = true → charsLe a c = true
  | [], _, _, _, _ => rfl
  | _ :: _, [], _, h, _ => by simp [charsLe] at h
  | _ :: _, _ :: _, [], _, h => by simp [charsLe] at h
  | a :: as, b :: bs, c :: cs, h₁, h₂ => by
    by_cases hab : a = b <;> by_cases hbc : b = c
    · subst hab; subst hbc
      simp only [charsLe, if_pos rfl] at h₁ h₂ ⊢
      exact charsLe_trans as bs cs h₁ h₂
    · subst hab
      simp only [charsLe, if_pos rfl, if_neg hbc] at h₂ ⊢
      exact h₂
    · subst hbc
      simp only [charsLe, if_neg hab] at h₁ ⊢
      exact h₁
    · simp only [charsLe, if_neg hab, if_neg hbc, decide_eq_true_eq] at h₁ h₂
      have hac : a < c := lt_trans h₁ h₂
      simp [charsLe, ne_of_lt hac, hac]

theorem charsLe_antisymm :
    ∀ a b : List Char, charsLe a b = true → charsLe b a = true → a = b
  | [], [], _, _ => rfl
  | [], _ :: _, _, h => by simp [charsLe] at h
  | _ :: _, [], h, _ => by simp [charsLe] at h
  | a :: as, b :: bs, h₁, h₂ => by
    by_cases hab : a = b
    · subst hab
      simp only [charsLe, if_pos rfl] at h₁ h₂
      rw [charsLe_antisymm as bs h₁ h₂]
    · simp only [charsLe, if_neg hab, if_neg (Ne.symm hab), decide_eq_true_eq] at h₁ h₂
      exact absurd h₂ (lt_asymm h₁)

theorem strLe_total (s t : String) : strLe s t = true ∨ strLe t s = true :=
  charsLe_total s.data t.data

theorem strLe_trans {s t u : String} (h₁ : strLe s t = true) (h₂ : strLe t u = true) :
    strLe s u = true :=
  charsLe_trans s.data t.data u.data h₁ h₂

theorem strLe_antisymm {s t : String} (h₁ : strLe s t = true) (h₂ : strLe t s = true) :
    s = t := by
  cases s with
  | mk a =>
    cases t with
    | mk b => exact congrArg String.mk (charsLe_antisymm a b h₁ h₂)

theorem mem_insSorted {y x : String} {l : List String} :
    y ∈ insSorted x l ↔ y = x ∨ y ∈ l := by
  induction l with
  | nil => simp [insSorted]
  | cons z zs ih =>
    by_cases h : strLe x z = true
    · simp [insSorted, h]
    · simp only [insSorted, if_neg h, List.mem_cons, ih]
      tauto

theorem mem_sortStrings {y : String} {l : List String} :
    y ∈ sortStrings l ↔ y ∈ l := by
  induction l with
  | nil => exact Iff.rfl
  | cons z zs ih => simp only [sortStrings, mem_insSorted, List.mem_cons, ih]

theorem sortedLe_insSorted {x : String} {l : List String} (h : SortedLe l) :
    SortedLe (insSorted x l) := by
  induction l with
  | nil => exact List.pairwise_singleton _ _
  | cons z zs ih =>
    rcases List.pairwise_cons.mp h with ⟨hz, hzs⟩
    by_cases hxz : strLe x z = true
    · simp only [insSorted, if_pos hxz]
      refine List.pairwise_cons.mpr ⟨?_, h⟩
      intro b hb
      rcases List.mem_cons.mp hb with rfl | hb
      · exact hxz
      · exact strLe_trans hxz (hz b hb)
    · have hzx : strLe z x = true := (strLe_total x z).resolve_left hxz
      simp only [insSorted, if_neg hxz]
      refine List.pairwise_cons.mpr ⟨?_, ih hzs⟩
      intro b hb
      rcases mem_insSorted.mp hb with rfl | hb
      · exact hzx
      · exact hz b hb

theorem sortedLe_sortStrings : ∀ l : List String, SortedLe (sortStrings l)
  | [] => List.Pairwise.nil
  | _ :: zs => sortedLe_insSorted (sortedLe_sortStrings zs)

theorem sortStrings_eq_self : ∀ {l : List String}, SortedLe l → sortStrings l = l
  | [], _ => rfl
  | x :: xs, h => by
    rcases List.pairwise_cons.mp h with ⟨hx, hxs⟩
    rw [sortStrings, sortStrings_eq_self hxs]
    cases xs with
    | nil => rfl
    | cons y ys => rw [insSorted, if_pos (hx y (List.mem_cons_self y ys))]

/-! ## Lemmas about optimize_paths -/

theorem selfOkAux_append {acc l : List String} {p : String}
    (h : SelfOkAux acc l) (hp : isCovered p (acc ++ l) = false) :
    SelfOkAux acc (l ++ [p]) := by
  induction h with
  | nil acc =>
    rw [List.append_nil] at hp
    exact .cons acc p [] hp (.nil _)
  | cons acc q l hq htail ih =>
    refine .cons acc q (l ++ [p]) hq (ih ?_)
    rwa [List.append_assoc, List.singleton_append]

theorem selfOkAux_foldl :
    ∀ (l acc : List String), SelfOkAux [] acc → SelfOkAux [] (l.foldl optStep acc)
  | [], _, h => h
  | p :: l, acc, h => by
    rw [List.foldl_cons]
    apply selfOkAux_foldl l
    unfold optStep
    by_cases hc : isCovered p acc = true
    · rw [if_pos hc]; exact h
    · rw [if_neg hc]
      exact @selfOkAux_append [] acc p h (by simp only [List.nil_append]; simpa using hc)

theorem foldl_of_selfOkAux {acc l : List String} (h : SelfOkAux acc l) :
    l.foldl optStep acc = acc ++ l := by
  induction h with
  | nil acc => simp
  | cons acc p l hp _ ih =>
    rw [List.foldl_cons, optStep, if_neg (by simp [hp])]
    simpa using ih

theorem foldl_optStep_sublist :
    ∀ (l acc : List String), ∃ l', l.foldl optStep acc = acc ++ l' ∧ l'.Sublist l
  | [], acc => ⟨[], by simp⟩
  | p :: l, acc => by
    rw [List.foldl_cons]
    unfold optStep
    by_cases hc : isCovered p acc = true
    · rw [if_pos hc]
      obtain ⟨l', h1, h2⟩ := foldl_optStep_sublist l acc
      exact ⟨l', h1, h2.cons p⟩
    · rw [if_neg hc]
      obtain ⟨l', h1, h2⟩ := foldl_optStep_sublist l (acc ++ [p])
      exact ⟨p :: l', by simpa using h1, h2.cons₂ p⟩

theorem sortedLe_optimize_paths (ps : List String) : SortedLe (optimize_paths ps) := by
  obtain ⟨l', h1, h2⟩ := foldl_optStep_sublist (sortStrings ps) []
  rw [optimize_paths, h1, List.nil_append]
  exact (sortedLe_sortStrings ps).sublist h2

theorem optimize_paths_of_optimized (ps : List String) :
    optimize_paths (optimize_paths ps) = optimize_paths ps := by
  have hsorted : SortedLe (optimize_paths ps) := sortedLe_optimize_paths ps
  have hself : SelfOkAux [] (optimize_paths ps) :=
    selfOkAux_foldl (sortStrings ps) [] (.nil [])
  have hdef : optimize_paths (optimize_paths ps)
      = (sortStrings (optimize_paths ps)).foldl optStep [] := rfl
  rw [hdef, sortStrings_eq_self hsorted]
  simpa using foldl_of_selfOkAux hself

/-! ## Lemmas about strings, splitting and joining -/

theorem strLe_refl (s : String) : strLe s s = true := by
  show charsLe s.data s.data = true
  induction s.data with
  | nil => rfl
  | cons c cs ih => simpa [charsLe] using ih

theorem strEta (s : String) : String.mk s.data = s := by
  cases s
  rfl

theorem strData_append (s t : String) : (s ++ t).data = s.data ++ t.data := by
  cases s
  cases t
  rfl

theorem strEmpty_iff {s : String} : s = "" ↔ s.data = [] := by
  cases s with
  | mk l =>
    constructor
    · intro h
      rw [h]
    · intro h
      have hl : l = [] := h
      subst hl
      rfl

theorem slashData : ("/" : String).data = ['/'] := rfl

theorem splitSegs_ne_nil : ∀ l : List Char, splitSegs l ≠ []
  | [] => by simp [splitSegs]
  | c :: cs => by
    by_cases h : c = '/'
    · simp [splitSegs, h]
    · cases h' : splitSegs cs with
      | nil => exact absurd h' (splitSegs_ne_nil cs)
      | cons s ss => simp [splitSegs, h, h']

theorem joinRest_splitSegs :
    ∀ (l : List Char) (s : List Char) (ss : List (List Char)),
      splitSegs l = s :: ss → s ++ joinRest ss = l
  | [], s, ss, h => by
    simp only [splitSegs] at h
    cases h
    rfl
  | c :: cs, s, ss, h => by
    by_cases hc : c = '/'
    · rw [splitSegs, if_pos hc] at h
      cases h
      cases h' : splitSegs cs with
      | nil => exact absurd h' (splitSegs_ne_nil cs)
      | cons s' ss' =>
        have ih := joinRest_splitSegs cs s' ss' h'
        simp [joinRest, ih, hc]
    · cases h' : splitSegs cs with
      | nil => exact absurd h' (splitSegs_ne_nil cs)
      | cons s' ss' =>
        have ih := joinRest_splitSegs cs s' ss' h'
        rw [splitSegs, if_neg hc, h'] at h
        cases h
        simpa using ih

theorem splitPath_ne_nil (p : String) : splitPath p ≠ [] := by
  intro h
  exact splitSegs_ne_nil p.data (List.map_eq_nil_iff.mp h)

theorem childPath_of_ne {parent : String} (name : String) (h : parent ≠ "") :
    childPath parent name = parent ++ "/" ++ name := by
  rw [childPath, if_neg h]

theorem childPath_data {parent : String} (t : List Char) (h : parent ≠ "") :
    (childPath parent (String.mk t)).data = parent.data ++ '/' :: t := by
  rw [childPath_of_ne _ h, strData_append, strData_append, slashData]
  simp

theorem foldl_childPath_data :
    ∀ (ss : List (List Char)) (parent : String), parent ≠ "" →
      (ss.map String.mk).foldl childPath parent = String.mk (parent.data ++ joinRest ss)
  | [], parent, _ => by simp [joinRest, strEta]
  | t :: ss, parent, h => by
    rw [List.map_cons, List.foldl_cons]
    have hdata := childPath_data t h
    have hne : childPath parent (String.mk t) ≠ "" := by
      rw [Ne, strEmpty_iff, hdata]
      simp
    rw [foldl_childPath_data ss _ hne, hdata, joinRest]
    simp

theorem foldl_childPath_splitPath {p : String} (h : firstSegOk p) :
    (splitPath p).foldl childPath "" = p := by
  rw [firstSegOk] at h
  cases hsp : splitSegs p.data with
  | nil => exact absurd hsp (splitSegs_ne_nil p.data)
  | cons s ss =>
    have hne : String.mk s ≠ "" := by
      rw [splitPath, hsp] at h
      simpa using h
    rw [splitPath, hsp, List.map_cons, List.foldl_cons]
    have h0 : childPath "" (String.mk s) = String.mk s := by rw [childPath, if_pos rfl]
    rw [h0, foldl_childPath_data ss _ hne]
    show String.mk (s ++ joinRest ss) = p
    rw [joinRest_splitSegs p.data s ss hsp, strEta]

/-! ## Lemmas about the nested dict -/

theorem lookup_consV (k : String) (v : Val) (d : Dict) (key : String) :
    (Dict.consV k v d).lookup key = if k = key then some v else d.lookup key := by
  cases v <;> rfl

theorem lookup_push_of_some {d : Dict} {key : String} {w : Val} (k : String) (v : Val)
    (h : d.lookup key = some w) : (d.push k v).lookup key = some w := by
  induction d with
  | nil => simp [Dict.lookup] at h
  | consFiles k' fs d ih =>
    rw [Dict.lookup] at h
    rw [Dict.push, Dict.lookup]
    by_cases hk : k' = key
    · rwa [if_pos hk] at h ⊢
    · rw [if_neg hk] at h ⊢
      exact ih h
  | consDir k' sub d ihsub ih =>
    rw [Dict.lookup] at h
    rw [Dict.push, Dict.lookup]
    by_cases hk : k' = key
    · rwa [if_pos hk] at h ⊢
    · rw [if_neg hk] at h ⊢
      exact ih h

theorem lookup_push_of_none {d : Dict} {key : String} (k : String) (v : Val)
    (h : d.lookup key = none) :
    (d.push k v).lookup key = if k = key then some v else none := by
  induction d with
  | nil => rw [Dict.push, lookup_consV, Dict.lookup]
  | consFiles k' fs d ih =>
    rw [Dict.lookup] at h
    by_cases hk : k' = key
    · rw [if_pos hk] at h
      exact absurd h (by simp)
    · rw [if_neg hk] at h
      rw [Dict.push, Dict.lookup, if_neg hk]
      exact ih h
  | consDir k' sub d ihsub ih =>
    rw [Dict.lookup] at h
    by_cases hk : k' = key
    · rw [if_pos hk] at h
      exact absurd h (by simp)
    · rw [if_neg hk] at h
      rw [Dict.push, Dict.lookup, if_neg hk]
      exact ih h

theorem lookup_update_of_ne {d : Dict} (k : String) (v : Val) {key : String}
    (hne : k ≠ key) : (d.update k v).lookup key = d.lookup key := by
  induction d with
  | nil => rfl
  | consFiles k' fs d ih =>
    rw [Dict.update]
    by_cases hk : k' = k
    · rw [if_pos hk, lookup_consV, if_neg hne, Dict.lookup,
        if_neg (fun hh : k' = key => hne (hk ▸ hh))]
    · rw [if_neg hk, Dict.lookup, Dict.lookup]
      by_cases hk2 : k' = key
      · rw [if_pos hk2, if_pos hk2]
      · rw [if_neg hk2, if_neg hk2]
        exact ih
  | consDir k' sub d ihsub ih =>
    rw [Dict.update]
    by_cases hk : k' = k
    · rw [if_pos hk, lookup_consV, if_neg hne, Dict.lookup,
        if_neg (fun hh : k' = key => hne (hk ▸ hh))]
    · rw [if_neg hk, Dict.lookup, Dict.lookup]
      by_cases hk2 : k' = key
      · rw [if_pos hk2, if_pos hk2]
      · rw [if_neg hk2, if_neg hk2]
        exact ih

theorem lookup_update_self {d : Dict} {k : String} {w : Val} (v : Val)
    (h : d.lookup k = some w) : (d.update k v).lookup k = some v := by
  induction d with
  | nil => simp [Dict.lookup] at h
  | consFiles k' fs d ih =>
    rw [Dict.lookup] at h
    rw [Dict.update]
    by_cases hk : k' = k
    · rw [if_pos hk, lookup_consV, if_pos rfl]
    · rw [if_neg hk] at h
      rw [if_neg hk, Dict.lookup, if_neg hk]
      exact ih h
  | consDir k' sub d ihsub ih =>
    rw [Dict.lookup] at h
    rw [Dict.update]
    by_cases hk : k' = k
    · rw [if_pos hk, lookup_consV, if_pos rfl]
    · rw [if_neg hk] at h
      rw [if_neg hk, Dict.lookup, if_neg hk]
      exact ih h

theorem WF_lookup_vlist {d : Dict} (hw : WF d) :
    ∀ {k : String} {fs : List String}, d.lookup k = some (.vlist fs) → k = "_files" := by
  induction hw with
  | nil =>
    intro k fs h
    simp [Dict.lookup] at h
  | files fs' d' hw' hnone ih =>
    intro k fs h
    rw [Dict.lookup] at h
    by_cases hk : "_files" = k
    · exact hk.symm
    · rw [if_neg hk] at h
      exact ih h
  | dir k' sub d' hk' hsub hd hnone ihsub ihd =>
    intro k fs h
    rw [Dict.lookup] at h
    by_cases hk : k' = k
    · rw [if_pos hk] at h
      exact absurd h (by simp)
    · rw [if_neg hk] at h
      exact ihd h

theorem WF_lookup_vdict {d : Dict} (hw : WF d) :
    ∀ {k : String} {sub : Dict}, d.lookup k = some (.vdict sub) → WF sub ∧ k ≠ "_files" := by
  induction hw with
  | nil =>
    intro k sub h
    simp [Dict.lookup] at h
  | files fs' d' hw' hnone ih =>
    intro k sub h
    rw [Dict.lookup] at h
    by_cases hk : "_files" = k
    · rw [if_pos hk] at h
      exact absurd h (by simp)
    · rw [if_neg hk] at h
      exact ih h
  | dir k' sub' d' hk' hsub hd hnone ihsub ihd =>
    intro k sub h
    rw [Dict.lookup] at h
    by_cases hk : k' = k
    · rw [if_pos hk] at h
      cases h
      exact ⟨hsub, hk ▸ hk'⟩
    · rw [if_neg hk] at h
      exact ihd h

theorem WF_push_files {d : Dict} (fs : List String) (hw : WF d)
    (h : d.lookup "_files" = none) : WF (d.push "_files" (.vlist fs)) := by
  induction hw with
  | nil => exact WF.files fs .nil WF.nil rfl
  | files fs' d' hw' hnone ih =>
    rw [Dict.lookup] at h
    simp at h
  | dir k' sub d' hk' hsub hd hnone ihsub ihd =>
    rw [Dict.lookup] at h
    by_cases hk : k' = "_files"
    · rw [if_pos hk] at h
      exact absurd h (by simp)
    · rw [if_neg hk] at h
      rw [Dict.push]
      have hnone' : (d'.push "_files" (.vlist fs)).lookup k' = none := by
        rw [lookup_push_of_none _ _ hnone, if_neg (fun hh => hk hh.symm)]
      exact WF.dir k' sub _ hk' hsub (ihd h) hnone'

theorem WF_push_dir {d : Dict} {k : String} {sub : Dict} (hk : k ≠ "_files")
    (hsub : WF sub) (hw : WF d) (h : d.lookup k = none) :
    WF (d.push k (.vdict sub)) := by
  induction hw with
  | nil => exact WF.dir k sub .nil hk hsub .nil rfl
  | files fs' d' hw' hnone ih =>
    rw [Dict.lookup] at h
    by_cases hkey : "_files" = k
    · rw [if_pos hkey] at h
      exact absurd h (by simp)
    · rw [if_neg hkey] at h
      rw [Dict.push]
      have hnone' : (d'.push k (.vdict sub)).lookup "_files" = none := by
        rw [lookup_push_of_none _ _ hnone, if_neg hk]
      exact WF.files fs' _ (ih h) hnone'
  | dir k' sub' d' hk' hsub' hd' hnone ihsub ihd =>
    rw [Dict.lookup] at h
    by_cases hkey : k' = k
    · rw [if_pos hkey] at h
      exact absurd h (by simp)
    · rw [if_neg hkey] at h
      rw [Dict.push]
      have hnone' : (d'.push k (.vdict sub)).lookup k' = none := by
        rw [lookup_push_of_none _ _ hnone, if_neg (fun hh => hkey hh.symm)]
      exact WF.dir k' sub' _ hk' hsub' (ihd h) hnone'

theorem WF_update_files {d : Dict} (fs : List String) (hw : WF d) :
    WF (d.update "_files" (.vlist fs)) := by
  induction hw with
  | nil => exact WF.nil
  | files fs' d' hw' hnone ih =>
    rw [Dict.update, if_pos rfl]
    exact WF.files fs d' hw' hnone
  | dir k' sub d' hk' hsub hd hnone ihsub ihd =>
    rw [Dict.update, if_neg hk']
    have hnone' : (d'.update "_files" (.vlist fs)).lookup k' = none := by
      rw [lookup_update_of_ne _ _ (Ne.symm hk')]
      exact hnone
    exact WF.dir k' sub _ hk' hsub ihd hnone'

theorem WF_update_dir {d : Dict} {k : String} {sub' : Dict} (hk : k ≠ "_files")
    (hsub' : WF sub') (hw : WF d) : WF (d.update k (.vdict sub')) := by
  induction hw with
  | nil => exact WF.nil
  | files fs' d' hw' hnone ih =>
    rw [Dict.update, if_neg (fun hh => hk hh.symm)]
    have hnone' : (d'.update k (.vdict sub')).lookup "_files" = none := by
      rw [lookup_update_of_ne _ _ hk]
      exact hnone
    exact WF.files fs' _ ih hnone'
  | dir k' sub d' hk' hsub hd hnone ihsub ihd =>
    by_cases hkey : k' = k
    · rw [Dict.update, if_pos hkey]
      subst hkey
      exact WF.dir k' sub' d' hk' hsub' hd hnone
    · rw [Dict.update, if_neg hkey]
      have hnone' : (d'.update k (.vdict sub')).lookup k' = none := by
        rw [lookup_update_of_ne _ _ (fun hh => hkey hh.symm)]
        exact hnone
      exact WF.dir k' sub _ hk' hsub ihd hnone'

theorem containsFileParts_nil : ∀ qs : List String, containsFileParts .nil qs = false
  | [] => rfl
  | [_] => rfl
  | _ :: _ :: _ => rfl

theorem lookup_sizeOf {d : Dict} {k : String} {sub : Dict}
    (h : d.lookup k = some (.vdict sub)) : sizeOf sub < sizeOf d := by
  induction d with
  | nil => simp [Dict.lookup] at h
  | consFiles k' fs d ih =>
    rw [Dict.lookup] at h
    by_cases hk : k' = k
    · rw [if_pos hk] at h
      exact absurd h (by simp)
    · rw [if_neg hk] at h
      have := ih h
      simp only [Dict.consFiles.sizeOf_spec]
      omega
  | consDir k' sub' d ihsub ih =>
    rw [Dict.lookup] at h
    by_cases hk : k' = k
    · rw [if_pos hk] at h
      cases h
      simp only [Dict.consDir.sizeOf_spec]
      omega
    · rw [if_neg hk] at h
      have := ih h
      simp only [Dict.consDir.sizeOf_spec]
      omega

/-! ## Correctness of insertPath and build_tree_structure -/

theorem insertPath_ok :
    ∀ (parts : List String) (d : Dict), WF d → noFilesSegs parts → parts ≠ [] →
      ∃ d', insertPath d parts = .ok d' ∧ WF d' ∧
        ∀ qs, (containsFileParts d' qs = true ↔
          containsFileParts d qs = true ∨ qs = parts)
  | [], _, _, _, hne => absurd rfl hne
  | [name], d, hw, _, _ => by
    cases hf : d.lookup "_files" with
    | none =>
      refine ⟨d.push "_files" (.vlist [name]), ?_, WF_push_files _ hw hf, ?_⟩
      · simp only [insertPath, hf]
      · intro qs
        have hfl : (d.push "_files" (.vlist [name])).lookup "_files"
            = some (.vlist [name]) := by
          rw [lookup_push_of_none _ _ hf, if_pos rfl]
        match qs with
        | [] => simp [containsFileParts]
        | [m] =>
          simp only [containsFileParts, hfl, hf]
          simp
        | a :: b :: t =>
          by_cases ha : a = "_files"
          · subst ha
            simp [containsFileParts, hfl, hf]
          · have hla : (d.push "_files" (.vlist [name])).lookup a = d.lookup a := by
              cases hda : d.lookup a with
              | some w => exact lookup_push_of_some _ _ hda
              | none => rw [lookup_push_of_none _ _ hda, if_neg (fun hh => ha hh.symm)]
            simp only [containsFileParts, hla]
            constructor
            · exact Or.inl
            · rintro (h | h)
              · exact h
              · simp at h
    | some val =>
      cases val with
      | vlist fs =>
        refine ⟨d.update "_files" (.vlist (fs ++ [name])), ?_, WF_update_files _ hw, ?_⟩
        · simp only [insertPath, hf]
        · intro qs
          have hfl := lookup_update_self (.vlist (fs ++ [name])) hf
          match qs with
          | [] => simp [containsFileParts]
          | [m] =>
            simp only [containsFileParts, hfl, hf]
            simp [List.mem_append]
          | a :: b :: t =>
            by_cases ha : a = "_files"
            · subst ha
              simp [containsFileParts, hfl, hf]
            · have hla : (d.update "_files" (.vlist (fs ++ [name]))).lookup a
                  = d.lookup a :=
                lookup_update_of_ne "_files" _ (fun hh => ha hh.symm)
              simp only [containsFileParts, hla]
              constructor
              · exact Or.inl
              · rintro (h | h)
                · exact h
                · simp at h
      | vdict sub => exact absurd rfl (WF_lookup_vdict hw hf).2
  | seg :: r :: rs, d, hw, hnf, _ => by
    have hseg : seg ≠ "_files" := hnf seg (by simp [List.dropLast])
    have hnf' : noFilesSegs (r :: rs) := by
      intro s hs
      refine hnf s ?_
      simp only [List.dropLast]
      exact List.mem_cons_of_mem _ hs
    cases hl : d.lookup seg with
    | none =>
      obtain ⟨sub, hins, hwsub, hchar⟩ :=
        insertPath_ok (r :: rs) .nil WF.nil hnf' (by simp)
      have hchar' : ∀ qs', (containsFileParts sub qs' = true ↔ qs' = r :: rs) := by
        intro qs'
        rw [hchar qs', containsFileParts_nil]
        simp
      refine ⟨d.push seg (.vdict sub), ?_, WF_push_dir hseg hwsub hw hl, ?_⟩
      · simp only [insertPath, hl, hins]
      · intro qs
        match qs with
        | [] => simp [containsFileParts]
        | [m] =>
          have hf2 : (d.push seg (.vdict sub)).lookup "_files" = d.lookup "_files" := by
            cases hdf : d.lookup "_files" with
            | some w => exact lookup_push_of_some _ _ hdf
            | none => rw [lookup_push_of_none _ _ hdf, if_neg hseg]
          simp only [containsFileParts, hf2]
          constructor
          · exact Or.inl
          · rintro (h | h)
            · exact h
            · simp at h
        | a :: b :: t =>
          by_cases ha : a = seg
          · subst ha
            have hl2 : (d.push a (.vdict sub)).lookup a = some (.vdict sub) := by
              rw [lookup_push_of_none _ _ hl, if_pos rfl]
            simp only [containsFileParts, hl2, hl, hchar' (b :: t)]
            simp
          · have hl2 : (d.push seg (.vdict sub)).lookup a = d.lookup a := by
              cases hda : d.lookup a with
              | some w => exact lookup_push_of_some _ _ hda
              | none => rw [lookup_push_of_none _ _ hda, if_neg (fun hh => ha hh.symm)]
            simp only [containsFileParts, hl2]
            constructor
            · exact Or.inl
            · rintro (h | h)
              · exact h
              · injection h with h1 _
                exact absurd h1 ha
    | some val =>
      cases val with
      | vdict sub =>
        obtain ⟨hwsub, _⟩ := WF_lookup_vdict hw hl
        obtain ⟨sub', hins, hwsub', hchar⟩ :=
          insertPath_ok (r :: rs) sub hwsub hnf' (by simp)
        refine ⟨d.update seg (.vdict sub'), ?_, WF_update_dir hseg hwsub' hw, ?_⟩
        · simp only [insertPath, hl, hins]
        · intro qs
          match qs with
          | [] => simp [containsFileParts]
          | [m] =>
            have hf2 : (d.update seg (.vdict sub')).lookup "_files" = d.lookup "_files" :=
              lookup_update_of_ne _ _ hseg
            simp only [containsFileParts, hf2]
            constructor
            · exact Or.inl
            · rintro (h | h)
              · exact h
              · simp at h
          | a :: b :: t =>
            by_cases ha : a = seg
            · subst ha
              have hl2 : (d.update a (.vdict sub')).lookup a = some (.vdict sub') :=
                lookup_update_self _ hl
              simp only [containsFileParts, hl2, hl, hchar (b :: t)]
              simp
            · have hl2 : (d.update seg (.vdict sub')).lookup a = d.lookup a :=
                lookup_update_of_ne _ _ (fun hh => ha hh.symm)
              simp only [containsFileParts, hl2]
              constructor
              · exact Or.inl
              · rintro (h | h)
                · exact h
                · injection h with h1 _
                  exact absurd h1 ha
      | vlist fs => exact absurd (WF_lookup_vlist hw hl) hseg

theorem buildFold_ok :
    ∀ (ps : List String) (d : Dict), WF d →
      (∀ p ∈ ps, noFilesSegs (splitPath p)) →
      ∃ d', buildFold d ps = .ok d' ∧ WF d' ∧
        ∀ qs, (containsFileParts d' qs = true ↔
          containsFileParts d qs = true ∨ ∃ p ∈ ps, qs = splitPath p)
  | [], d, hw, _ => ⟨d, rfl, hw, by simp⟩
  | f :: fs, d, hw, hnf => by
    obtain ⟨d1, hins, hw1, hchar1⟩ :=
      insertPath_ok (splitPath f) d hw (hnf f (List.mem_cons_self f fs))
        (splitPath_ne_nil f)
    obtain ⟨d', hfold, hw', hchar'⟩ :=
      buildFold_ok fs d1 hw1 (fun p hp => hnf p (List.mem_cons_of_mem _ hp))
    refine ⟨d', ?_, hw', ?_⟩
    · simp only [buildFold, hins, hfold]
    · intro qs
      rw [hchar' qs, hchar1 qs]
      constructor
      · rintro ((h | h) | h)
        · exact Or.inl h
        · exact Or.inr ⟨f, List.mem_cons_self f fs, h⟩
        · obtain ⟨p, hp, hq⟩ := h
          exact Or.inr ⟨p, List.mem_cons_of_mem _ hp, hq⟩
      · rintro (h | ⟨p, hp, hq⟩)
        · exact Or.inl (Or.inl h)
        · rcases List.mem_cons.mp hp with rfl | hp'
          · exact Or.inl (Or.inr hq)
          · exact Or.inr ⟨p, hp', hq⟩

theorem build_ok (ps : List String) (h : ∀ p ∈ ps, noFilesSegs (splitPath p)) :
    ∃ d, build_tree_structure ps = .ok d ∧ WF d ∧
      ∀ qs, (containsFileParts d qs = true ↔ ∃ p ∈ ps, qs = splitPath p) := by
  obtain ⟨d, h1, h2, h3⟩ := buildFold_ok ps .nil WF.nil h
  refine ⟨d, h1, h2, fun qs => ?_⟩
  rw [h3 qs, containsFileParts_nil]
  simp

/-! ## Correctness of the materialization (_build_level with lazy=False) -/

theorem entriesOf_consV (k : String) (v : Val) (d : Dict) :
    (Dict.consV k v d).entriesOf = (k, v) :: d.entriesOf := by
  cases v <;> rfl

theorem mem_insEntry_entries {e : String × Val} {k : String} {v : Val} {d : Dict} :
    e ∈ (insEntry k v d).entriesOf ↔ e = (k, v) ∨ e ∈ d.entriesOf := by
  induction d with
  | nil => simp [insEntry, entriesOf_consV, Dict.entriesOf]
  | consFiles k' fs d ih =>
    rw [insEntry]
    by_cases h : strLe k k' = true
    · rw [if_pos h, entriesOf_consV]
      simp [Dict.entriesOf]
    · rw [if_neg h]
      simp only [Dict.entriesOf, List.mem_cons, ih]
      tauto
  | consDir k' sub d ihsub ih =>
    rw [insEntry]
    by_cases h : strLe k k' = true
    · rw [if_pos h, entriesOf_consV]
      simp [Dict.entriesOf]
    · rw [if_neg h]
      simp only [Dict.entriesOf, List.mem_cons, ih]
      tauto

theorem mem_sortDict_entries {k : String} {v : Val} :
    ∀ {d : Dict}, ((k, v) ∈ (sortDict d).entriesOf ↔
      ∃ v₀, (k, v₀) ∈ d.entriesOf ∧ v = sortVal v₀) := by
  intro d
  induction d with
  | nil => simp [sortDict, Dict.entriesOf]
  | consFiles k' fs d ih =>
    rw [sortDict, mem_insEntry_entries]
    simp only [Dict.entriesOf, List.mem_cons, ih, Prod.mk.injEq]
    constructor
    · rintro (⟨rfl, rfl⟩ | ⟨v₀, hmem, rfl⟩)
      · exact ⟨.vlist fs, Or.inl ⟨rfl, rfl⟩, rfl⟩
      · exact ⟨v₀, Or.inr hmem, rfl⟩
    · rintro ⟨v₀, (⟨rfl, rfl⟩ | hmem), rfl⟩
      · exact Or.inl ⟨rfl, rfl⟩
      · exact Or.inr ⟨v₀, hmem, rfl⟩
  | consDir k' sub d ihsub ih =>
    rw [sortDict, mem_insEntry_entries]
    simp only [Dict.entriesOf, List.mem_cons, ih, Prod.mk.injEq]
    constructor
    · rintro (⟨rfl, rfl⟩ | ⟨v₀, hmem, rfl⟩)
      · exact ⟨.vdict sub, Or.inl ⟨rfl, rfl⟩, rfl⟩
      · exact ⟨v₀, Or.inr hmem, rfl⟩
    · rintro ⟨v₀, (⟨rfl, rfl⟩ | hmem), rfl⟩
      · exact Or.inl ⟨rfl, rfl⟩
      · exact Or.inr ⟨v₀, hmem, rfl⟩

theorem lookup_mem_entries {d : Dict} {k : String} {v : Val}
    (h : d.lookup k = some v) : (k, v) ∈ d.entriesOf := by
  induction d with
  | nil => simp [Dict.lookup] at h
  | consFiles k' fs d ih =>
    rw [Dict.lookup] at h
    rw [Dict.entriesOf]
    by_cases hk : k' = k
    · rw [if_pos hk] at h
      cases h
      exact hk ▸ List.mem_cons_self _ _
    · rw [if_neg hk] at h
      exact List.mem_cons_of_mem _ (ih h)
  | consDir k' sub d ihsub ih =>
    rw [Dict.lookup] at h
    rw [Dict.entriesOf]
    by_cases hk : k' = k
    · rw [if_pos hk] at h
      cases h
      exact hk ▸ List.mem_cons_self _ _
    · rw [if_neg hk] at h
      exact List.mem_cons_of_mem _ (ih h)

theorem entries_lookup_isSome {d : Dict} {k : String} {v : Val}
    (h : (k, v) ∈ d.entriesOf) : ∃ w, d.lookup k = some w := by
  induction d with
  | nil => simp [Dict.entriesOf] at h
  | consFiles k' fs d ih =>
    rw [Dict.entriesOf] at h
    rw [Dict.lookup]
    by_cases hk : k' = k
    · exact ⟨.vlist fs, by rw [if_pos hk]⟩
    · rcases List.mem_cons.mp h with heq | hmem
      · exact absurd (congrArg Prod.fst heq).symm hk
      · rw [if_neg hk]
        exact ih hmem
  | consDir k' sub d ihsub ih =>
    rw [Dict.entriesOf] at h
    rw [Dict.lookup]
    by_cases hk : k' = k
    · exact ⟨.vdict sub, by rw [if_pos hk]⟩
    · rcases List.mem_cons.mp h with heq | hmem
      · exact absurd (congrArg Prod.fst heq).symm hk
      · rw [if_neg hk]
        exact ih hmem

theorem WF_entries_lookup {d : Dict} (hw : WF d) :
    ∀ {k : String} {v : Val}, (k, v) ∈ d.entriesOf → d.lookup k = some v := by
  induction hw with
  | nil =>
    intro k v hmem
    simp [Dict.entriesOf] at hmem
  | files fs d' hw' hnone ih =>
    intro k v hmem
    rw [Dict.entriesOf] at hmem
    rw [Dict.lookup]
    rcases List.mem_cons.mp hmem with heq | hmem'
    · injection heq with h1 h2
      subst h1
      subst h2
      rw [if_pos rfl]
    · by_cases hk : "_files" = k
      · subst hk
        obtain ⟨w, hw2⟩ := entries_lookup_isSome hmem'
        rw [hw2] at hnone
        cases hnone
      · rw [if_neg hk]
        exact ih hmem'
  | dir k' sub d' hk' hsub hd hnone ihsub ihd =>
    intro k v hmem
    rw [Dict.entriesOf] at hmem
    rw [Dict.lookup]
    rcases List.mem_cons.mp hmem with heq | hmem'
    · injection heq with h1 h2
      subst h1
      subst h2
      rw [if_pos rfl]
    · by_cases hk : k' = k
      · subst hk
        obtain ⟨w, hw2⟩ := entries_lookup_isSome hmem'
        rw [hw2] at hnone
        cases hnone
      · rw [if_neg hk]
        exact ihd hmem'

theorem WF_lookup_entries {d : Dict} (hw : WF d) {k : String} {v : Val} :
    d.lookup k = some v ↔ (k, v) ∈ d.entriesOf :=
  ⟨lookup_mem_entries, WF_entries_lookup hw⟩

theorem lookup_sortDict_none {d : Dict} {k : String} (h : d.lookup k = none) :
    (sortDict d).lookup k = none := by
  cases h' : (sortDict d).lookup k with
  | none => rfl
  | some w =>
    obtain ⟨v₀, hmem, _⟩ := mem_sortDict_entries.mp (lookup_mem_entries h')
    obtain ⟨w', hw'⟩ := entries_lookup_isSome hmem
    rw [h] at hw'
    cases hw'

theorem lookup_insEntry (k : String) (v : Val) (key : String) :
    ∀ d : Dict, (insEntry k v d).lookup key
      = if k = key then some v else d.lookup key := by
  intro d
  induction d with
  | nil => rw [insEntry, lookup_consV, Dict.lookup]
  | consFiles k' fs d ih =>
    rw [insEntry]
    by_cases h : strLe k k' = true
    · rw [if_pos h, lookup_consV]
    · rw [if_neg h, Dict.lookup]
      by_cases hk' : k' = key
      · have hkk : k ≠ key := by
          intro hh
          exact h (by rw [hk', ← hh]; exact strLe_refl k)
        rw [if_pos hk', if_neg hkk, Dict.lookup, if_pos hk']
      · rw [if_neg hk', ih, Dict.lookup, if_neg hk']
  | consDir k' sub d ihsub ih =>
    rw [insEntry]
    by_cases h : strLe k k' = true
    · rw [if_pos h, lookup_consV]
    · rw [if_neg h, Dict.lookup]
      by_cases hk' : k' = key
      · have hkk : k ≠ key := by
          intro hh
          exact h (by rw [hk', ← hh]; exact strLe_refl k)
        rw [if_pos hk', if_neg hkk, Dict.lookup, if_pos hk']
      · rw [if_neg hk', ih, Dict.lookup, if_neg hk']

theorem WF_insEntry_files {d : Dict} (fs : List String) (hw : WF d)
    (h : d.lookup "_files" = none) : WF (insEntry "_files" (.vlist fs) d) := by
  induction hw with
  | nil => exact WF.files fs .nil WF.nil rfl
  | files fs' d' hw' hnone ih =>
    rw [Dict.lookup] at h
    simp at h
  | dir k' sub d' hk' hsub hd hnone ihsub ihd =>
    rw [Dict.lookup] at h
    by_cases hk : k' = "_files"
    · rw [if_pos hk] at h
      exact absurd h (by simp)
    · rw [if_neg hk] at h
      rw [insEntry]
      by_cases hle : strLe "_files" k' = true
      · rw [if_pos hle]
        exact WF.files fs _ (WF.dir k' sub d' hk' hsub hd hnone)
          (by rw [Dict.lookup, if_neg hk]; exact h)
      · rw [if_neg hle]
        have hnone' : (insEntry "_files" (.vlist fs) d').lookup k' = none := by
          rw [lookup_insEntry, if_neg (fun hh => hk hh.symm)]
          exact hnone
        exact WF.dir k' sub _ hk' hsub (ihd h) hnone'

theorem WF_insEntry_dir {d : Dict} {k : String} {sub : Dict} (hk : k ≠ "_files")
    (hsub : WF sub) (hw : WF d) (h : d.lookup k = none) :
    WF (insEntry k (.vdict sub) d) := by
  induction hw with
  | nil => exact WF.dir k sub .nil hk hsub .nil rfl
  | files fs' d' hw' hnone ih =>
    rw [Dict.lookup] at h
    by_cases hkey : "_files" = k
    · rw [if_pos hkey] at h
      exact absurd h (by simp)
    · rw [if_neg hkey] at h
      rw [insEntry]
      by_cases hle : strLe k "_files" = true
      · rw [if_pos hle]
        exact WF.dir k sub _ hk hsub (WF.files fs' d' hw' hnone)
          (by rw [Dict.lookup, if_neg hkey]; exact h)
      · rw [if_neg hle]
        have hnone' : (insEntry k (.vdict sub) d').lookup "_files" = none := by
          rw [lookup_insEntry, if_neg hk]
          exact hnone
        exact WF.files fs' _ (ih h) hnone'
  | dir k' sub' d' hk' hsub' hd' hnone ihsub ihd =>
    rw [Dict.lookup] at h
    by_cases hkey : k' = k
    · rw [if_pos hkey] at h
      exact absurd h (by simp)
    · rw [if_neg hkey] at h
      rw [insEntry]
      by_cases hle : strLe k k' = true
      · rw [if_pos hle]
        exact WF.dir k sub _ hk hsub (WF.dir k' sub' d' hk' hsub' hd' hnone)
          (by rw [Dict.lookup, if_neg hkey]; exact h)
      · rw [if_neg hle]
        have hnone' : (insEntry k (.vdict sub) d').lookup k' = none := by
          rw [lookup_insEntry, if_neg (fun hh => hkey hh.symm)]
          exact hnone
        exact WF.dir k' sub' _ hk' hsub' (ihd h) hnone'

theorem WF_sortDict {d : Dict} (hw : WF d) : WF (sortDict d) := by
  induction hw with
  | nil => exact WF.nil
  | files fs d' hw' hnone ih =>
    rw [sortDict]
    exact WF_insEntry_files fs ih (lookup_sortDict_none hnone)
  | dir k' sub d' hk' hsub hd hnone ihsub ihd =>
    rw [sortDict]
    exact WF_insEntry_dir hk' ihsub ihd (lookup_sortDict_none hnone)

theorem lookup_sortDict {d : Dict} (hw : WF d) (k : String) :
    (sortDict d).lookup k = Option.map sortVal (d.lookup k) := by
  cases h : d.lookup k with
  | none => simp [lookup_sortDict_none h]
  | some v =>
    have hmem : (k, sortVal v) ∈ (sortDict d).entriesOf :=
      mem_sortDict_entries.mpr ⟨v, lookup_mem_entries h, rfl⟩
    exact (WF_lookup_entries (WF_sortDict hw)).mpr hmem

theorem mem_folderItemsSorted {it : Item} {parent : String} :
    ∀ {sd : Dict}, (it ∈ folderItemsSorted parent sd ↔
      ∃ k sub, (k, Val.vdict sub) ∈ sd.entriesOf ∧ strStarts k "_" = false ∧
        (it = ⟨k, childPath parent k, false⟩ ∨
          it ∈ folderItemsSorted (childPath parent k) sub
            ++ filesAtLevel (childPath parent k) sub)) := by
  intro sd
  induction sd with
  | nil => simp [folderItemsSorted, Dict.entriesOf]
  | consFiles k' fs d ih =>
    rw [folderItemsSorted, ih]
    simp only [Dict.entriesOf, List.mem_cons]
    constructor
    · rintro ⟨k, sub, hmem, h1, h2⟩
      exact ⟨k, sub, Or.inr hmem, h1, h2⟩
    · rintro ⟨k, sub, (heq | hmem), h1, h2⟩
      · exact absurd heq (by simp)
      · exact ⟨k, sub, hmem, h1, h2⟩
  | consDir k' sub' d ihsub ih =>
    rw [folderItemsSorted]
    by_cases hu : strStarts k' "_" = true
    · rw [if_pos hu, ih]
      simp only [Dict.entriesOf, List.mem_cons]
      constructor
      · rintro ⟨k, sub, hmem, h1, h2⟩
        exact ⟨k, sub, Or.inr hmem, h1, h2⟩
      · rintro ⟨k, sub, (heq | hmem), h1, h2⟩
        · injection heq with hka hkv
          injection hkv with hkv
          subst hka
          subst hkv
          rw [hu] at h1
          cases h1
        · exact ⟨k, sub, hmem, h1, h2⟩
    · rw [if_neg hu]
      have hu' : strStarts k' "_" = false := by simpa using hu
      constructor
      · intro hmem
        rcases List.mem_cons.mp hmem with rfl | hmem'
        · exact ⟨k', sub', List.mem_cons_self _ _, hu', Or.inl rfl⟩
        · rcases List.mem_append.mp hmem' with hsub | hrest
          · exact ⟨k', sub', List.mem_cons_self _ _, hu', Or.inr hsub⟩
          · obtain ⟨k, sub, hmem, h1, h2⟩ := ih.mp hrest
            exact ⟨k, sub, List.mem_cons_of_mem _ hmem, h1, h2⟩
      · rintro ⟨k, sub, hmem, h1, h2⟩
        rcases List.mem_cons.mp hmem with heq | hmem'
        · injection heq with hka hkv
          injection hkv with hkv
          subst hka
          subst hkv
          rcases h2 with rfl | h2
          · exact List.mem_cons_self _ _
          · exact List.mem_cons_of_mem _ (List.mem_append.mpr (Or.inl h2))
        · exact List.mem_cons_of_mem _
            (List.mem_append.mpr (Or.inr (ih.mpr ⟨k, sub, hmem', h1, h2⟩)))

theorem mem_levelItemsOf {it : Item} {parent : String} {d : Dict} (hw : WF d) :
    it ∈ levelItemsOf parent d ↔
      ((∃ k sub, d.lookup k = some (.vdict sub) ∧ strStarts k "_" = false ∧
          (it = ⟨k, childPath parent k, false⟩ ∨
            it ∈ levelItemsOf (childPath parent k) sub))
        ∨ (∃ fs n, d.lookup "_files" = some (.vlist fs) ∧ n ∈ fs ∧
            it = ⟨n, childPath parent n, true⟩)) := by
  rw [levelItemsOf, List.mem_append, mem_folderItemsSorted]
  constructor
  · rintro (⟨k, sub', hmem, h1, h2⟩ | hfl)
    · obtain ⟨v₀, hmem₀, hv⟩ := mem_sortDict_entries.mp hmem
      cases v₀ with
      | vlist fs =>
        rw [show sortVal (Val.vlist fs) = Val.vlist fs from rfl] at hv
        exact Val.noConfusion hv
      | vdict sub₀ =>
        have hsub : sub' = sortDict sub₀ := by
          rw [show sortVal (Val.vdict sub₀) = Val.vdict (sortDict sub₀) from rfl] at hv
          injection hv
        subst hsub
        have hlook : d.lookup k = some (.vdict sub₀) := (WF_lookup_entries hw).mpr hmem₀
        exact Or.inl ⟨k, sub₀, hlook, h1, h2⟩
    · cases hdf : d.lookup "_files" with
      | none =>
        rw [filesAtLevel, lookup_sortDict_none hdf] at hfl
        simp at hfl
      | some v =>
        cases v with
        | vlist fs =>
          have hsl : (sortDict d).lookup "_files" = some (.vlist fs) := by
            rw [lookup_sortDict hw, hdf]
            rfl
          rw [filesAtLevel, hsl] at hfl
          simp only [List.mem_map] at hfl
          obtain ⟨n, hn, rfl⟩ := hfl
          exact Or.inr ⟨fs, n, rfl, mem_sortStrings.mp hn, rfl⟩
        | vdict sub => exact absurd rfl (WF_lookup_vdict hw hdf).2
  · rintro (⟨k, sub₀, hlook, h1, h2⟩ | ⟨fs, n, hdf, hn, rfl⟩)
    · exact Or.inl
        ⟨k, sortDict sub₀,
          mem_sortDict_entries.mpr ⟨.vdict sub₀, lookup_mem_entries hlook, rfl⟩, h1, h2⟩
    · refine Or.inr ?_
      have hsl : (sortDict d).lookup "_files" = some (.vlist fs) := by
        rw [lookup_sortDict hw, hdf]
        rfl
      rw [filesAtLevel, hsl]
      simp only [List.mem_map]
      exact ⟨n, mem_sortStrings.mpr hn, rfl⟩

/-- The characterization of the materialized leaf paths: a string is the
full path of a materialized file item exactly when it is the join of a
split path stored in the tree whose folder segments do not start with
'_'. -/
theorem leafChar (d : Dict) (hw : WF d) (parent q : String) :
    q ∈ leafList parent d ↔
      ∃ parts, parts ≠ [] ∧ cleanSegs parts ∧ containsFileParts d parts = true ∧
        q = parts.foldl childPath parent := by
  constructor
  · intro hq
    rw [leafList] at hq
    simp only [List.mem_map, List.mem_filter] at hq
    obtain ⟨it, ⟨hmem, hfile⟩, hpath⟩ := hq
    rcases (mem_levelItemsOf hw).mp hmem with ⟨k, sub, hlook, hus, hin⟩ | ⟨fs, n, hdf, hn, rfl⟩
    · rcases hin with rfl | hin
      · simp at hfile
      · have hql : it.path ∈ leafList (childPath parent k) sub := by
          rw [leafList]
          simp only [List.mem_map, List.mem_filter]
          exact ⟨it, ⟨hin, hfile⟩, rfl⟩
        obtain ⟨parts, hne, hclean, hcont, hfold⟩ :=
          (leafChar sub (WF_lookup_vdict hw hlook).1 (childPath parent k) it.path).mp hql
        refine ⟨k :: parts, by simp, ?_, ?_, ?_⟩
        · intro s hs
          cases parts with
          | nil => exact absurd rfl hne
          | cons p0 ps0 =>
            simp only [List.dropLast] at hs
            rcases List.mem_cons.mp hs with rfl | hs'
            · exact hus
            · exact hclean s hs'
        · cases parts with
          | nil => exact absurd rfl hne
          | cons p0 ps0 =>
            simp only [containsFileParts, hlook]
            exact hcont
        · rw [← hpath, hfold, List.foldl_cons]
    · refine ⟨[n], by simp, ?_, ?_, ?_⟩
      · intro s hs
        simp [List.dropLast] at hs
      · simp only [containsFileParts, hdf]
        simp [hn]
      · rw [← hpath]
        rfl
  · rintro ⟨parts, hne, hclean, hcont, rfl⟩
    cases parts with
    | nil => exact absurd rfl hne
    | cons p0 ps0 =>
      cases ps0 with
      | nil =>
        cases hdf : d.lookup "_files" with
        | none =>
          simp only [containsFileParts, hdf] at hcont
          exact Bool.noConfusion hcont
        | some v =>
          cases v with
          | vlist fs =>
            simp only [containsFileParts, hdf, decide_eq_true_eq] at hcont
            rw [leafList]
            simp only [List.mem_map, List.mem_filter]
            exact ⟨⟨p0, childPath parent p0, true⟩,
              ⟨(mem_levelItemsOf hw).mpr (Or.inr ⟨fs, p0, hdf, hcont, rfl⟩), rfl⟩, rfl⟩
          | vdict sub =>
            simp only [containsFileParts, hdf] at hcont
            exact Bool.noConfusion hcont
      | cons p1 ps1 =>
        cases hdl : d.lookup p0 with
        | none =>
          simp only [containsFileParts, hdl] at hcont
          exact Bool.noConfusion hcont
        | some v =>
          cases v with
          | vlist fs =>
            simp only [containsFileParts, hdl] at hcont
            exact Bool.noConfusion hcont
          | vdict sub =>
            simp only [containsFileParts, hdl] at hcont
            have hw' := (WF_lookup_vdict hw hdl).1
            have hcl : cleanSegs (p1 :: ps1) := by
              intro s hs
              refine hclean s ?_
              simp only [List.dropLast]
              exact List.mem_cons_of_mem _ hs
            have hp0 : strStarts p0 "_" = false := hclean p0 (by simp [List.dropLast])
            have hrec :=
              (leafChar sub hw' (childPath parent p0)
                ((p1 :: ps1).foldl childPath (childPath parent p0))).mpr
                ⟨p1 :: ps1, by simp, hcl, hcont, rfl⟩
            rw [leafList] at hrec ⊢
            simp only [List.mem_map, List.mem_filter] at hrec ⊢
            obtain ⟨it, ⟨hmem, hfile⟩, hpath⟩ := hrec
            refine ⟨it,
              ⟨(mem_levelItemsOf hw).mpr (Or.inl ⟨p0, sub, hdl, hp0, Or.inr hmem⟩), hfile⟩, ?_⟩
            rw [List.foldl_cons]
            exact hpath
termination_by sizeOf d
decreasing_by
  all_goals first
    | exact lookup_sizeOf hlook
    | exact lookup_sizeOf hdl

/-! ## Lemmas about the selection-set operations -/

theorem mem_setAdd {s : List String} {x y : String} :
    y ∈ setAdd s x ↔ y = x ∨ y ∈ s := by
  rw [setAdd]
  by_cases h : x ∈ s
  · rw [if_pos h]
    constructor
    · exact Or.inr
    · rintro (rfl | hy)
      · exact h
      · exact hy
  · rw [if_neg h]
    simp [List.mem_append, or_comm]

theorem mem_add_all_children (fileSet : List String) (fp y : String) :
    ∀ checked : List String,
      (y ∈ add_all_children_to_checked fileSet checked fp ↔
        y ∈ checked ∨ (y ∈ fileSet ∧ strStarts y (fp ++ "/") = true)) := by
  induction fileSet with
  | nil =>
    intro checked
    simp [add_all_children_to_checked]
  | cons f fs ih =>
    intro checked
    have hstep : add_all_children_to_checked (f :: fs) checked fp
        = add_all_children_to_checked fs
            (if strStarts f (fp ++ "/") = true then setAdd checked f else checked) fp := rfl
    rw [hstep, ih]
    by_cases hc : strStarts f (fp ++ "/") = true
    · rw [if_pos hc]
      constructor
      · rintro (hyf | ⟨hmem, hst⟩)
        · rcases mem_setAdd.mp hyf with rfl | hy
          · exact Or.inr ⟨List.mem_cons_self _ _, hc⟩
          · exact Or.inl hy
        · exact Or.inr ⟨List.mem_cons_of_mem _ hmem, hst⟩
      · rintro (hy | ⟨hmem, hst⟩)
        · exact Or.inl (mem_setAdd.mpr (Or.inr hy))
        · rcases List.mem_cons.mp hmem with rfl | hmem'
          · exact Or.inl (mem_setAdd.mpr (Or.inl rfl))
          · exact Or.inr ⟨hmem', hst⟩
    · rw [if_neg hc]
      constructor
      · rintro (hy | ⟨hmem, hst⟩)
        · exact Or.inl hy
        · exact Or.inr ⟨List.mem_cons_of_mem _ hmem, hst⟩
      · rintro (hy | ⟨hmem, hst⟩)
        · exact Or.inl hy
        · rcases List.mem_cons.mp hmem with rfl | hmem'
          · exact absurd hst hc
          · exact Or.inr ⟨hmem', hst⟩

theorem mem_on_item_checked (fileSet S : List String) (p q : String) :
    q ∈ on_item_changed_selection fileSet S p .checked ↔
      q = p ∨ q ∈ S ∨ (q ∈ fileSet ∧ strStarts q (p ++ "/") = true) := by
  rw [on_item_changed_selection, if_pos rfl]
  by_cases hf : is_folder fileSet p = true
  · rw [if_pos hf, mem_add_all_children, mem_setAdd]
    tauto
  · rw [if_neg hf, mem_setAdd]
    constructor
    · rintro (rfl | hy)
      · exact Or.inl rfl
      · exact Or.inr (Or.inl hy)
    · rintro (rfl | hy | ⟨hmem, hst⟩)
      · exact Or.inl rfl
      · exact Or.inr hy
      · refine absurd ?_ hf
        rw [is_folder, List.any_eq_true]
        exact ⟨q, hmem, hst⟩

theorem mem_on_item_unchecked (fileSet S : List String) (p q : String)
    (st : CheckState) (hst : st ≠ .checked) :
    q ∈ on_item_changed_selection fileSet S p st ↔
      q ∈ S ∧ q ≠ p ∧ strStarts q (p ++ "/") = false := by
  rw [on_item_changed_selection, if_neg hst, remove_all_children_from_checked]
  simp only [List.mem_filter, decide_eq_true_eq]
  tauto

/-! ## Lemmas about update_parent_check_state -/

theorem count_checked_eq_length_iff {cs : List CheckState} :
    cs.count .checked = cs.length ↔ ∀ c ∈ cs, c = .checked := by
  rw [List.count_eq_length]
  constructor
  · intro h c hc
    have := h c hc
    simpa [eq_comm] using this
  · intro h c hc
    have := h c hc
    simp [this]

theorem count_eq_zero_iff_all_ne {a : CheckState} {cs : List CheckState} :
    cs.count a = 0 ↔ ∀ c ∈ cs, c ≠ a := by
  rw [List.count_eq_zero]
  constructor
  · intro h c hc hca
    exact h (hca ▸ hc)
  · intro h hmem
    exact h a hmem rfl

theorem count_set_unchecked :
    ∀ (cs : List CheckState) (i : Nat), i < cs.length →
      (∀ c ∈ cs, c = CheckState.checked) →
      (cs.set i .unchecked).count .checked = cs.length - 1
      ∧ (cs.set i .unchecked).count .halfChecked = 0
  | [], i, hi, _ => by simp at hi
  | c :: cs, 0, _, hall => by
    have hcs : ∀ x ∈ cs, x = CheckState.checked :=
      fun x hx => hall x (List.mem_cons_of_mem _ hx)
    have hcount : cs.count CheckState.checked = cs.length :=
      count_checked_eq_length_iff.mpr hcs
    have hhalf : cs.count CheckState.halfChecked = 0 :=
      count_eq_zero_iff_all_ne.mpr (fun x hx hxa => by
        rw [hcs x hx] at hxa
        cases hxa)
    constructor
    · simp [List.count_cons, hcount]
    · simp [List.count_cons, hhalf]
  | c :: cs, i + 1, hi, hall => by
    have hc : c = CheckState.checked := hall c (List.mem_cons_self _ _)
    have hcs : ∀ x ∈ cs, x = CheckState.checked :=
      fun x hx => hall x (List.mem_cons_of_mem _ hx)
    have hi' : i < cs.length := by simpa using hi
    obtain ⟨h1, h2⟩ := count_set_unchecked cs i hi' hcs
    subst hc
    have hlen : 1 ≤ cs.length := by omega
    constructor
    · simp only [List.set, List.count_cons, h1, List.length_cons]
      simp
      omega
    · simp [List.set, List.count_cons, h2]

theorem update_parent_check_state_eq (ds : List CheckState) (hds : ds.length ≠ 0) :
    update_parent_check_state ds =
      (if ds.count .checked = ds.length then some .checked
       else if ds.count .checked = 0 ∧ ds.count .halfChecked = 0 then some .unchecked
       else some .halfChecked) := by
  show (if ds.length = 0 then none
    else if ds.count .checked = ds.length then some CheckState.checked
    else if ds.count .checked = 0 ∧ ds.count .halfChecked = 0 then some CheckState.unchecked
    else some CheckState.halfChecked) = _
  rw [if_neg hds]

/-! ## The claims -/

/-- C1: for the input path list ["a/x.txt","a/y.txt","b/z.txt"], the
compile pipeline (checked paths, folder/file classification, sort,
subsumption filter, rendering) produces exactly ["share a/..."] when
folder a is fully checked and b is unchecked; exactly ["share a/x.txt"]
when only a/x.txt is checked; and exactly
["share a/...", "share b/z.txt"] when a is fully checked and b/z.txt is
also checked. -/
theorem claim_c1_compile_examples :
    spec_lines ["a/x.txt", "a/y.txt", "b/z.txt"]
        (on_item_changed_selection ["a/x.txt", "a/y.txt", "b/z.txt"] [] "a" .checked)
      = ["share a/..."]
    ∧ spec_lines ["a/x.txt", "a/y.txt", "b/z.txt"]
        (on_item_changed_selection ["a/x.txt", "a/y.txt", "b/z.txt"] [] "a/x.txt" .checked)
      = ["share a/x.txt"]
    ∧ spec_lines ["a/x.txt", "a/y.txt", "b/z.txt"]
        (on_item_changed_selection ["a/x.txt", "a/y.txt", "b/z.txt"]
          (on_item_changed_selection ["a/x.txt", "a/y.txt", "b/z.txt"] [] "a" .checked)
          "b/z.txt" .checked)
      = ["share a/...", "share b/z.txt"] := by
  refine ⟨by decide, by decide, by decide⟩

/-- C2 counterexample: the input ["_foo/a.txt"] has no file/folder name
conflict, yet building and fully materializing yields the empty leaf set
(the folder segment starting with '_' is silently skipped by the
display), so the leaf path set does not equal the input set. -/
theorem claim_c2_counterexample :
    (build_tree_structure ["_foo/a.txt"]).toOption.map leafPaths = some []
    ∧ some ([] : List String) ≠ some ["_foo/a.txt"] := by
  refine ⟨by decide, by decide⟩

/-- C2 amended: for every flat list of slash-delimited paths that are
well-formed PathEntry values (nonempty, no leading slash) and in which no
folder segment begins with an underscore, building the tree and then
fully materializing every level yields a tree whose set of leaf full
paths equals the input path set exactly. -/
theorem claim_c2_amended_roundtrip (ps : List String) (h : ∀ p ∈ ps, pathWF p) :
    ∃ d, build_tree_structure ps = .ok d ∧ ∀ q, (q ∈ leafPaths d ↔ q ∈ ps) := by
  have hft : strStarts "_files" "_" = true := by decide
  have hnf : ∀ p ∈ ps, noFilesSegs (splitPath p) := by
    intro p hp s hs hemp
    have hcl := (h p hp).2 s hs
    rw [hemp, hft] at hcl
    cases hcl
  obtain ⟨d, hbuild, hwf, hchar⟩ := build_ok ps hnf
  refine ⟨d, hbuild, fun q => ?_⟩
  rw [leafPaths, leafChar d hwf "" q]
  constructor
  · rintro ⟨parts, hne, hclean, hcont, rfl⟩
    obtain ⟨p, hp, rfl⟩ := (hchar parts).mp hcont
    rw [foldl_childPath_splitPath (h p hp).1]
    exact hp
  · intro hq
    exact ⟨splitPath q, splitPath_ne_nil q, (h q hq).2, (hchar _).mpr ⟨q, hq, rfl⟩,
      (foldl_childPath_splitPath (h q hq).1).symm⟩

/-- C2 witness: the amended round-trip at a concrete input. -/
theorem claim_c2_amended_roundtrip_witness :
    ∃ d, build_tree_structure ["a/x.txt", "b.txt"] = .ok d
      ∧ ∀ q, (q ∈ leafPaths d ↔ q ∈ ["a/x.txt", "b.txt"]) :=
  claim_c2_amended_roundtrip ["a/x.txt", "b.txt"] (by decide)

/-- C3 counterexample: the checked file path "Ambient Music/song.wav"
(which contains a space) renders as the unquoted line
share Ambient Music/song.wav, not as the quoted line the claim
requires. -/
theorem claim_c3_counterexample :
    spec_lines ["Ambient Music/song.wav"]
        (on_item_changed_selection ["Ambient Music/song.wav"] []
          "Ambient Music/song.wav" .checked)
      = ["share Ambient Music/song.wav"]
    ∧ spec_lines ["Ambient Music/song.wav"]
        (on_item_changed_selection ["Ambient Music/song.wav"] []
          "Ambient Music/song.wav" .checked)
      ≠ ["share \"Ambient Music/song.wav\""] := by
  refine ⟨by decide, by decide⟩

/-- C3 amended: every kept directive path renders verbatim as the line
"share <path>"; the renderer never wraps any path in double quotes, not
even a path containing a space character. -/
theorem claim_c3_amended_render (fileSet checked : List String) :
    spec_lines fileSet checked
      = (get_checked_paths fileSet checked).map (fun p => "share " ++ p) := by
  show (if get_checked_paths fileSet checked = [] then []
    else (get_checked_paths fileSet checked).map (fun p => "share " ++ p)) = _
  by_cases h : get_checked_paths fileSet checked = []
  · rw [if_pos h, h]
    rfl
  · rw [if_neg h]

/-- C4 counterexample: after the folder a of the tree {a/b/c.txt} is
fully checked and a is materialized, the revealed folder child a/b
initializes to PartiallyChecked, not to Checked as the claim states:
only descendant file paths (and the toggled folder itself) are recorded
in checked_paths, so a folder child matches the strict-prefix rule, not
exact membership. -/
theorem claim_c4_counterexample :
    restore_check_state
        (on_item_changed_selection ["a/b/c.txt"] [] "a" .checked)
        (built_initial_state "b") "a/b"
      = .halfChecked := by
  decide

/-- C4 amended: materializing a folder previously marked fully checked
(directly or via an ancestor A), with no explicit per-child toggle
since, initializes every revealed direct file child to Checked, but
every revealed folder child to PartiallyChecked (never Unchecked, and
not Checked): the folder child's own path is absent from checked_paths
while some descendant file below it is present. -/
theorem claim_c4_amended_restore (fileSet S : List String)
    (A C g nm f : String)
    (hg : g ∈ fileSet) (hgA : strStarts g (A ++ "/") = true)
    (hgC : strStarts g (C ++ "/") = true)
    (hCS : C ∉ S) (hCA : C ≠ A) (hCf : C ∉ fileSet)
    (hf : f ∈ fileSet) (hfA : strStarts f (A ++ "/") = true) :
    restore_check_state (on_item_changed_selection fileSet S A .checked)
        (built_initial_state nm) C = .halfChecked
    ∧ restore_check_state (on_item_changed_selection fileSet S A .checked)
        (built_initial_state nm) f = .checked := by
  have hCmem : C ∉ on_item_changed_selection fileSet S A .checked := by
    rw [mem_on_item_checked]
    rintro (rfl | hC | ⟨hC, _⟩)
    · exact hCA rfl
    · exact hCS hC
    · exact hCf hC
  have hgmem : g ∈ on_item_changed_selection fileSet S A .checked :=
    (mem_on_item_checked fileSet S A g).mpr (Or.inr (Or.inr ⟨hg, hgA⟩))
  have hfmem : f ∈ on_item_changed_selection fileSet S A .checked :=
    (mem_on_item_checked fileSet S A f).mpr (Or.inr (Or.inr ⟨hf, hfA⟩))
  constructor
  · rw [restore_check_state, if_neg hCmem, if_pos ?_]
    rw [List.any_eq_true]
    exact ⟨g, hgmem, hgC⟩
  · rw [restore_check_state, if_pos hfmem]

/-- C4 witness: the amended restoration behavior at a concrete input. -/
theorem claim_c4_amended_restore_witness :
    restore_check_state (on_item_changed_selection ["a/b/c.txt"] [] "a" .checked)
        (built_initial_state "x") "a/b" = .halfChecked
    ∧ restore_check_state (on_item_changed_selection ["a/b/c.txt"] [] "a" .checked)
        (built_initial_state "x") "a/b/c.txt" = .checked :=
  claim_c4_amended_restore ["a/b/c.txt"] [] "a" "a/b" "a/b/c.txt" "x" "a/b/c.txt"
    (by decide) (by decide) (by decide) (by decide) (by decide) (by decide)
    (by decide) (by decide)

/-- C5 counterexample: checking folder a while the more-specific entry
a/x.txt is already in the selection set does NOT remove that entry (the
claim says descendant entries are collapsed to the ancestor at
insertion): the entry remains in checked_paths. -/
theorem claim_c5_counterexample :
    "a/x.txt" ∈ on_item_changed_selection ["a/x.txt"] ["a/x.txt"] "a" .checked := by
  decide

/-- C5 amended: marking a folder fully included adds the folder path and
all of its known descendant file paths to the selection set and removes
nothing (already-present descendant entries are retained; collapsing to
the ancestor happens only at compile time in optimize_paths); unchecking
removes the path itself and every selection-set entry strictly under its
prefix. -/
theorem claim_c5_amended_record (fileSet S : List String) (p q : String) :
    (q ∈ on_item_changed_selection fileSet S p .checked ↔
      q = p ∨ q ∈ S ∨ (q ∈ fileSet ∧ strStarts q (p ++ "/") = true))
    ∧ (∀ r ∈ S, r ∈ on_item_changed_selection fileSet S p .checked)
    ∧ (q ∈ on_item_changed_selection fileSet S p .unchecked ↔
      q ∈ S ∧ q ≠ p ∧ strStarts q (p ++ "/") = false) := by
  refine ⟨mem_on_item_checked fileSet S p q, ?_, ?_⟩
  · intro r hr
    exact (mem_on_item_checked fileSet S p r).mpr (Or.inr (Or.inl hr))
  · exact mem_on_item_unchecked fileSet S p q .unchecked (by simp)

/-- C6: a materialized folder's recomputed state is a pure function of
its (non-placeholder) children's states: Checked iff all children are
Checked, Unchecked iff no child is Checked and none is PartiallyChecked,
and PartiallyChecked otherwise; unchecking exactly one child of a
fully-checked folder yields PartiallyChecked when there is more than one
child, and Unchecked exactly when that child was the only one. -/
theorem claim_c6_parent_state (cs : List CheckState) (hne : cs ≠ []) :
    ((update_parent_check_state cs = some .checked ↔ ∀ c ∈ cs, c = .checked)
      ∧ (update_parent_check_state cs = some .unchecked ↔
          ∀ c ∈ cs, c ≠ .checked ∧ c ≠ .halfChecked)
      ∧ (update_parent_check_state cs = some .halfChecked ↔
          (¬ ∀ c ∈ cs, c = .checked)
            ∧ ¬ ∀ c ∈ cs, c ≠ .checked ∧ c ≠ .halfChecked))
    ∧ ∀ i, i < cs.length → (∀ c ∈ cs, c = .checked) →
        ((1 < cs.length →
            update_parent_check_state (cs.set i .unchecked) = some .halfChecked)
          ∧ (cs.length = 1 →
            update_parent_check_state (cs.set i .unchecked) = some .unchecked)) := by
  have hn : cs.length ≠ 0 := fun h => hne (List.length_eq_zero.mp h)
  constructor
  · rw [update_parent_check_state_eq cs hn]
    by_cases h1 : cs.count .checked = cs.length
    · rw [if_pos h1]
      have hall : ∀ c ∈ cs, c = CheckState.checked := count_checked_eq_length_iff.mp h1
      cases cs with
      | nil => exact absurd rfl hne
      | cons c0 cs0 =>
        have hc0 : c0 = CheckState.checked := hall c0 (List.mem_cons_self _ _)
        refine ⟨⟨fun _ => hall, fun _ => rfl⟩, ?_, ?_⟩
        · constructor
          · intro h
            cases h
          · intro h
            exact absurd hc0 (h c0 (List.mem_cons_self _ _)).1
        · constructor
          · intro h
            cases h
          · rintro ⟨h, _⟩
            exact absurd hall h
    · rw [if_neg h1]
      have hnall : ¬ ∀ c ∈ cs, c = CheckState.checked :=
        fun h => h1 (count_checked_eq_length_iff.mpr h)
      by_cases h2 : cs.count .checked = 0 ∧ cs.count .halfChecked = 0
      · rw [if_pos h2]
        have hnone : ∀ c ∈ cs, c ≠ CheckState.checked ∧ c ≠ CheckState.halfChecked := by
          intro c hc
          exact ⟨count_eq_zero_iff_all_ne.mp h2.1 c hc,
            count_eq_zero_iff_all_ne.mp h2.2 c hc⟩
        refine ⟨?_, ⟨fun _ => hnone, fun _ => rfl⟩, ?_⟩
        · constructor
          · intro h
            cases h
          · intro h
            exact absurd h hnall
        · constructor
          · intro h
            cases h
          · rintro ⟨_, h⟩
            exact absurd hnone h
      · rw [if_neg h2]
        have hnnone : ¬ ∀ c ∈ cs, c ≠ CheckState.checked ∧ c ≠ CheckState.halfChecked := by
          intro h
          exact h2 ⟨count_eq_zero_iff_all_ne.mpr (fun c hc => (h c hc).1),
            count_eq_zero_iff_all_ne.mpr (fun c hc => (h c hc).2)⟩
        refine ⟨?_, ?_, ⟨fun _ => ⟨hnall, hnnone⟩, fun _ => rfl⟩⟩
        · constructor
          · intro h
            cases h
          · intro h
            exact absurd h hnall
        · constructor
          · intro h
            cases h
          · intro h
            exact absurd h hnnone
  · intro i hi hall
    obtain ⟨hc, hh⟩ := count_set_unchecked cs i hi hall
    have hlen : (cs.set i .unchecked).length = cs.length := List.length_set cs i _
    have hn' : (cs.set i .unchecked).length ≠ 0 := by rw [hlen]; exact hn
    rw [update_parent_check_state_eq _ hn', hlen, hc, hh]
    constructor
    · intro hgt
      rw [if_neg (by omega), if_neg (by omega)]
    · intro heq
      rw [heq]
      rw [if_neg (by omega), if_pos (by omega)]

/-- C6 witness: the parent recomputation at a concrete two-child
folder. -/
theorem claim_c6_parent_state_witness :
    ((update_parent_check_state [CheckState.checked, CheckState.checked]
        = some .checked ↔ ∀ c ∈ [CheckState.checked, CheckState.checked], c = .checked)
      ∧ (update_parent_check_state [CheckState.checked, CheckState.checked]
          = some .unchecked ↔
          ∀ c ∈ [CheckState.checked, CheckState.checked],
            c ≠ .checked ∧ c ≠ .halfChecked)
      ∧ (update_parent_check_state [CheckState.checked, CheckState.checked]
          = some .halfChecked ↔
          (¬ ∀ c ∈ [CheckState.checked, CheckState.checked], c = .checked)
            ∧ ¬ ∀ c ∈ [CheckState.checked, CheckState.checked],
              c ≠ .checked ∧ c ≠ .halfChecked))
    ∧ ∀ i, i < ([CheckState.checked, CheckState.checked] : List CheckState).length →
        (∀ c ∈ ([CheckState.checked, CheckState.checked] : List CheckState),
          c = .checked) →
        ((1 < ([CheckState.checked, CheckState.checked] : List CheckState).length →
            update_parent_check_state
              (([CheckState.checked, CheckState.checked] : List CheckState).set
                i .unchecked) = some .halfChecked)
          ∧ (([CheckState.checked, CheckState.checked] : List CheckState).length = 1 →
            update_parent_check_state
              (([CheckState.checked, CheckState.checked] : List CheckState).set
                i .unchecked) = some .unchecked)) :=
  claim_c6_parent_state [CheckState.checked, CheckState.checked] (by decide)

/-- C7 counterexample: for the input ["a", "a/b"], in which the segment
a collides with an existing node of the opposite kind (file a at the
root, then folder a), tree construction does NOT fail: it succeeds, and
the resulting tree holds both the file a and the file a/b (hence the
folder a). No MalformedPathError exists in the builder. -/
theorem claim_c7_counterexample :
    (build_tree_structure ["a", "a/b"]).isOk = true
    ∧ (build_tree_structure ["a", "a/b"]).toOption.map
        (fun d => (containsFileParts d ["a"], containsFileParts d ["a", "b"]))
      = some (true, true) := by
  refine ⟨by decide, by decide⟩

/-- C7 amended: tree construction never fails on a file/folder name
collision: for every input list in which no folder segment is literally
"_files", the build succeeds (the file name is stored in the level's
'_files' list while the folder is a dict key, so the two coexist); in
particular ["a", "a/b"] builds a tree containing both the file a and the
file a/b. -/
theorem claim_c7_amended_no_collision_error :
    (∀ ps : List String,
      (∀ p ∈ ps, ∀ s ∈ (splitPath p).dropLast, s ≠ "_files") →
      (build_tree_structure ps).isOk = true)
    ∧ (build_tree_structure ["a", "a/b"]).toOption.map
        (fun d => (containsFileParts d ["a"], containsFileParts d ["a", "b"]))
      = some (true, true) := by
  constructor
  · intro ps h
    obtain ⟨d, hb, _, _⟩ := build_ok ps h
    rw [hb]
    rfl
  · decide

/-- C7 witness: the amended no-failure statement at a concrete input. -/
theorem claim_c7_amended_no_collision_error_witness :
    (build_tree_structure ["a", "a/b"]).isOk = true :=
  claim_c7_amended_no_collision_error.1 ["a", "a/b"] (by decide)

/-- C8 counterexample: applying the selection operation to the path
"nope", which is absent from the (empty) tree, does not fail with any
error; it silently mutates the selection state by recording the unknown
path. -/
theorem claim_c8_counterexample :
    on_item_changed_selection [] [] "nope" .checked = ["nope"] := by
  decide

/-- C8 amended: selection operations on a path not present in the full
tree do not fail and are not rejected: on_item_changed records the
unknown path in checked_paths as if it were a file (no UnknownPathError
exists), and load_children's navigation returns silently, without
mutating anything, as soon as a segment is missing from the tree
structure. -/
theorem claim_c8_amended_unknown (fileSet S : List String) (p : String)
    (hfile : p ∉ fileSet)
    (hfold : ∀ f ∈ fileSet, strStarts f (p ++ "/") = false) :
    on_item_changed_selection fileSet S p .checked = setAdd S p
    ∧ ∀ (d : Dict) (seg : String) (rest : List String),
        d.lookup seg = none → navigateTree d (seg :: rest) = none := by
  constructor
  · rw [on_item_changed_selection, if_pos rfl]
    have hnf : ¬ is_folder fileSet p = true := by
      rw [is_folder, List.any_eq_true]
      rintro ⟨f, hfm, hfs⟩
      rw [hfold f hfm] at hfs
      cases hfs
    rw [if_neg hnf]
  · intro d seg rest h
    simp only [navigateTree, h]

/-- C8 witness: the amended unknown-path behavior at a concrete input. -/
theorem claim_c8_amended_unknown_witness :
    on_item_changed_selection ["a/b"] [] "zz" .checked = setAdd [] "zz"
    ∧ navigateTree Dict.nil ["zz"] = none :=
  ⟨(claim_c8_amended_unknown ["a/b"] [] "zz" (by decide) (by decide)).1,
    (claim_c8_amended_unknown ["a/b"] [] "zz" (by decide) (by decide)).2
      Dict.nil "zz" [] rfl⟩

/-- C9: directive compilation is idempotent: optimize_paths applied to
its own output returns that output unchanged, for every list of
candidate directive paths. -/
theorem claim_c9_optimize_idempotent (ps : List String) :
    optimize_paths (optimize_paths ps) = optimize_paths ps :=
  optimize_paths_of_optimized ps

/-- C10: a folder segment beginning with an underscore is silently
omitted from the displayed tree together with everything beneath it: for
every input list of well-formed paths with no "_files" folder segment,
the build succeeds without error, yet any member path containing a
'_'-initial folder segment is absent from the materialized leaf paths;
concretely, ["_foo/a.txt", "x.txt"] materializes only the file item
x.txt (no _foo folder item at all), and a folder segment literally named
"_files" collides with the reserved key during construction:
["x.txt", "_files/y.txt"] aborts the build with an error. -/
theorem claim_c10_underscore_hiding :
    (∀ (ps : List String) (p : String),
        (∀ r ∈ ps, firstSegOk r ∧ noFilesSegs (splitPath r)) → p ∈ ps →
        ¬ cleanSegs (splitPath p) →
        ∃ d, build_tree_structure ps = .ok d ∧ p ∉ leafPaths d)
    ∧ (build_tree_structure ["_foo/a.txt", "x.txt"]).toOption.map buildFullItems
        = some [⟨"x.txt", "x.txt", true⟩]
    ∧ (build_tree_structure ["x.txt", "_files/y.txt"]).isOk = false := by
  refine ⟨?_, by decide, by decide⟩
  intro ps p hall hp hclean
  obtain ⟨d, hb, hwf, hchar⟩ := build_ok ps (fun r hr => (hall r hr).2)
  refine ⟨d, hb, ?_⟩
  intro hleaf
  rw [leafPaths] at hleaf
  obtain ⟨parts, hne, hcl, hcont, heq⟩ := (leafChar d hwf "" p).mp hleaf
  obtain ⟨r, hr, rfl⟩ := (hchar parts).mp hcont
  rw [foldl_childPath_splitPath (hall r hr).1] at heq
  subst heq
  exact hclean hcl

/-- C10 witness: the underscore-hiding statement at a concrete input. -/
theorem claim_c10_underscore_hiding_witness :
    ∃ d, build_tree_structure ["_z/f.txt", "g.txt"] = .ok d
      ∧ "_z/f.txt" ∉ leafPaths d :=
  claim_c10_underscore_hiding.1 ["_z/f.txt", "g.txt"] "_z/f.txt"
    (by decide) (by decide) (by decide)

end VSU
